import Mathlib

/-
Verification of the comparator engine of proto-breaking-change-detector.

The visible source slice contains the real `EnumValueComparator`
(src/src/comparator/enum_value_comparator.py); the surrounding comparators
(FileSetComparator, FileComparator, MessageComparator, FieldComparator,
EnumComparator, resource and packaging-option comparators) are exercised
only by tests (src/test/comparator/test_file_set_comparator.py) and are
modelled from the specification where a claim needs them.
-/

set_option autoImplicit false

namespace PBCD

/-- Severity of a finding: `MAJOR` is breaking, `MINOR` is a safe addition. -/
inductive ChangeType where
  | MAJOR
  | MINOR
  deriving DecidableEq

/-- The closed taxonomy of change categories used by the comparators that the
claims touch (src/src/findings/finding_category.py is not in the visible
slice; the category names follow the spec and the tests). -/
inductive FindingCategory where
  | ENUM_VALUE_ADDITION
  | ENUM_VALUE_REMOVAL
  | ENUM_VALUE_NAME_CHANGE
  | FIELD_ADDITION
  | FIELD_REMOVAL
  | FIELD_NAME_CHANGE
  | FIELD_TYPE_CHANGE
  | MESSAGE_REMOVAL
  | ENUM_REMOVAL
  | RESOURCE_PATTERN_REMOVAL
  | RESOURCE_PATTERN_ADDITION
  | PACKAGING_OPTION_REMOVAL
  | PACKAGING_OPTION_CHANGE
  deriving DecidableEq

/-- One detected difference: category, severity, location (proto file name and
source line), subject, optional pre-change name, context string and optional
extra info, mirroring `FindingContainer.add_finding`'s keyword arguments. -/
structure Finding where
  category : FindingCategory
  changeType : ChangeType
  protoFileName : String
  sourceCodeLine : Nat
  subject : String
  oldSubject : Option String
  context : String
  extraInfo : Option String
  deriving DecidableEq

/-- The wrapper attributes of an enum value that
`EnumValueComparator.compare` reads (`name`, `proto_file_name`,
`source_code_line`, `nested_path`), plus the numeric value that serves as the
identity key during reconciliation (spec section 3). -/
structure EnumValue where
  name : String
  number : Nat
  protoFileName : String
  sourceCodeLine : Nat
  nestedPath : String
  deriving DecidableEq

/-- Shallow embedding of `EnumValueComparator.compare`
(src/src/comparator/enum_value_comparator.py, lines 33-65).  The Python
object holds `enum_value_original`, `enum_value_update`, the shared finding
container and a context string; `compare` appends at most one finding to the
container.  A `None` dereference (both inputs absent: the addition branch
reads `self.enum_value_update.proto_file_name` on `None`) is modelled as
`none`; otherwise the result is `some` of the container with the appended
findings. -/
def EnumValueComparator.compare (enumValueOriginal enumValueUpdate : Option EnumValue)
    (context : String) (container : List Finding) : Option (List Finding) :=
  match enumValueOriginal with
  | none =>
    -- 1. If the original EnumValue is None, then a new EnumValue is added.
    match enumValueUpdate with
    | none => none
    | some u =>
      some (container ++ [{ category := .ENUM_VALUE_ADDITION,
                            changeType := .MINOR,
                            protoFileName := u.protoFileName,
                            sourceCodeLine := u.sourceCodeLine,
                            subject := u.name,
                            oldSubject := none,
                            context := context,
                            extraInfo := none }])
  | some o =>
    match enumValueUpdate with
    | none =>
      -- 2. If the updated EnumValue is None, then the original EnumValue is removed.
      some (container ++ [{ category := .ENUM_VALUE_REMOVAL,
                            changeType := .MAJOR,
                            protoFileName := o.protoFileName,
                            sourceCodeLine := o.sourceCodeLine,
                            subject := o.name,
                            oldSubject := none,
                            context := context,
                            extraInfo := none }])
    | some u =>
      -- 3. If both EnumValueDescriptors are existing, check if the name is identical.
      if o.name ≠ u.name then
        some (container ++ [{ category := .ENUM_VALUE_NAME_CHANGE,
                              changeType := .MAJOR,
                              protoFileName := u.protoFileName,
                              sourceCodeLine := u.sourceCodeLine,
                              subject := u.name,
                              oldSubject := some o.name,
                              context := context,
                              extraInfo := some u.nestedPath }])
      else
        some container

/-- Modelled from the spec: the EnumComparator (its module is not in the
visible source slice) reconciles the enum values of a matched enum pair,
spec section 4.3: keys (numeric values) present only in the original go to
the leaf comparator as removals, keys present only in the updated as
additions, keys present in both as matched pairs. This helper runs the real
`EnumValueComparator.compare` over the resulting pairs, threading the
container and propagating a crash. -/
def EnumComparator.runPairs (ps : List (Option EnumValue × Option EnumValue))
    (context : String) (container : List Finding) : Option (List Finding) :=
  match ps with
  | [] => some container
  | p :: rest =>
    match EnumValueComparator.compare p.1 p.2 context container with
    | none => none
    | some c2 => EnumComparator.runPairs rest context c2

/-- Modelled from the spec: EnumComparator's reconciliation of the enum
values of a matched enum pair (spec sections 3 and 4.3, identity key the
numeric value). Missing from the source slice; only its effect at the leaf
level (the real `EnumValueComparator.compare`) is source-derived. -/
def EnumComparator.compare (valuesOriginal valuesUpdate : List EnumValue)
    (context : String) (container : List Finding) : Option (List Finding) :=
  let removed := valuesOriginal.filter fun v =>
    !(valuesUpdate.any fun w => decide (w.number = v.number))
  let added := valuesUpdate.filter fun w =>
    !(valuesOriginal.any fun v => decide (v.number = w.number))
  let matched := valuesOriginal.filterMap fun v =>
    (valuesUpdate.find? fun w => decide (w.number = v.number)).map fun w =>
      (some v, some w)
  EnumComparator.runPairs
    ((removed.map fun v => (some v, (none : Option EnumValue)))
      ++ (added.map fun w => ((none : Option EnumValue), some w))
      ++ matched)
    context container

/-- The wrapper attributes of a message field that the claims touch: name,
wire number (the identity key, spec section 3), declared type name and source
line. -/
structure Field where
  name : String
  number : Nat
  typeName : String
  sourceCodeLine : Nat
  deriving DecidableEq

/-- Modelled from the spec: the FieldComparator (its module is not in the
visible source slice) compares a matched pair of fields, spec section 4.4:
one finding per differing tracked attribute, FIELD_NAME_CHANGE/MAJOR for a
name difference and FIELD_TYPE_CHANGE/MAJOR for a type difference, located
in the updated file (the tests at
src/test/comparator/test_file_set_comparator.py lines 102-115 and 117-163
pin the categories, severities and locations). -/
def fieldCompare (f g : Field) (updatedFileName context : String) : List Finding :=
  (if f.name ≠ g.name then
    [{ category := .FIELD_NAME_CHANGE,
       changeType := .MAJOR,
       protoFileName := updatedFileName,
       sourceCodeLine := g.sourceCodeLine,
       subject := g.name,
       oldSubject := some f.name,
       context := context,
       extraInfo := none }]
  else [])
  ++ (if f.typeName ≠ g.typeName then
    [{ category := .FIELD_TYPE_CHANGE,
       changeType := .MAJOR,
       protoFileName := updatedFileName,
       sourceCodeLine := g.sourceCodeLine,
       subject := g.name,
       oldSubject := none,
       context := context,
       extraInfo := none }]
  else [])

/-- Modelled from the spec: the MessageComparator's reconciliation of the
fields of a matched message pair (not in the visible source slice), spec
section 4.3: key the children by wire number; keys only in the original give
FIELD_REMOVAL/MAJOR findings located at the original file, keys only in the
updated give FIELD_ADDITION/MINOR findings located at the updated file, and
matched keys recurse into `fieldCompare`. -/
def reconcileFields (origFields updFields : List Field)
    (originalFileName updatedFileName context : String) : List Finding :=
  ((origFields.filter fun f =>
      !(updFields.any fun g => decide (g.number = f.number))).map fun f =>
    { category := .FIELD_REMOVAL,
      changeType := .MAJOR,
      protoFileName := originalFileName,
      sourceCodeLine := f.sourceCodeLine,
      subject := f.name,
      oldSubject := none,
      context := context,
      extraInfo := none })
  ++ ((updFields.filter fun g =>
      !(origFields.any fun f => decide (f.number = g.number))).map fun g =>
    { category := .FIELD_ADDITION,
      changeType := .MINOR,
      protoFileName := updatedFileName,
      sourceCodeLine := g.sourceCodeLine,
      subject := g.name,
      oldSubject := none,
      context := context,
      extraInfo := none })
  ++ (origFields.flatMap fun f =>
    match updFields.find? fun g => decide (g.number = f.number) with
    | some g => fieldCompare f g updatedFileName context
    | none => [])

/-- Recognizer for a FIELD_NAME_CHANGE finding carrying a given old and new
field name. -/
def isNameChangeFor (origName updName : String) (fd : Finding) : Bool :=
  decide (fd.category = .FIELD_NAME_CHANGE ∧ fd.subject = updName
    ∧ fd.oldSubject = some origName)

/-- Recognizer for a FIELD_REMOVAL finding with a given subject. -/
def isRemovalOf (n : String) (fd : Finding) : Bool :=
  decide (fd.category = .FIELD_REMOVAL ∧ fd.subject = n)

/-- Recognizer for a FIELD_ADDITION finding with a given subject. -/
def isAdditionOf (n : String) (fd : Finding) : Bool :=
  decide (fd.category = .FIELD_ADDITION ∧ fd.subject = n)

/-- In a list whose keys are pairwise distinct, `find?` on the key of a
member returns exactly that member. -/
theorem find?_key_unique {α κ : Type} [DecidableEq κ] (key : α → κ)
    (l : List α) (a : α) (ha : a ∈ l) (hnd : (l.map key).Nodup) :
    l.find? (fun x => decide (key x = key a)) = some a := by
  induction l with
  | nil => cases ha
  | cons x t ih =>
    rw [List.map_cons, List.nodup_cons] at hnd
    rcases List.mem_cons.mp ha with rfl | hat
    · exact List.find?_cons_of_pos _ (by simp)
    · have hx : ¬ (key x = key a) := fun he =>
        hnd.1 (he ▸ List.mem_map_of_mem key hat)
      rw [List.find?_cons_of_neg _ (by simpa using hx)]
      exact ih hat hnd.2

/-- Counting over a keyed bind when a single element contributes: if every
other element of the (key-distinct) list contributes no matching finding,
the total count is that of the distinguished element. -/
theorem countP_bind_unique {α κ : Type} [DecidableEq α] [DecidableEq κ]
    (p : Finding → Bool) (h : α → List Finding) (key : α → κ)
    (l : List α) (a : α) (ha : a ∈ l) (hnd : (l.map key).Nodup)
    (hz : ∀ x ∈ l, x ≠ a → (h x).countP p = 0) :
    (l.flatMap h).countP p = (h a).countP p := by
  induction l with
  | nil => cases ha
  | cons x t ih =>
    rw [List.map_cons, List.nodup_cons] at hnd
    rw [List.flatMap_cons, List.countP_append]
    rcases List.mem_cons.mp ha with rfl | hat
    · have ht : (t.flatMap h).countP p = 0 := by
        rw [List.countP_eq_zero]
        intro fd hfd
        obtain ⟨y, hy, hfy⟩ := List.mem_flatMap.mp hfd
        have hya : y ≠ a := by
          rintro rfl
          exact hnd.1 (List.mem_map_of_mem key hy)
        have h0 := hz y (List.mem_cons_of_mem _ hy) hya
        rw [List.countP_eq_zero] at h0
        exact h0 fd hfy
      rw [ht]
      omega
    · have hxa : x ≠ a := by
        rintro rfl
        exact hnd.1 (List.mem_map_of_mem key hat)
      rw [hz x (List.mem_cons_self x t) hxa,
        ih hat hnd.2 (fun y hy hya => hz y (List.mem_cons_of_mem _ hy) hya)]
      omega

/-- For a matched pair other than the distinguished one, `fieldCompare`
contributes no FIELD_NAME_CHANGE finding with the distinguished old name. -/
theorem countP_fieldCompare_other (fName gName : String) (x y : Field)
    (ufn ctx : String) (hx : x.name ≠ fName) :
    (fieldCompare x y ufn ctx).countP (isNameChangeFor fName gName) = 0 := by
  simp only [fieldCompare]
  rw [List.countP_append]
  split <;> split <;> simp [isNameChangeFor, hx]

/-- C1: in the (spec-modelled, wire-number-keyed) field reconciliation, a
field that keeps its number but changes its name produces exactly one
FIELD_NAME_CHANGE finding tying old and new name, every FIELD_NAME_CHANGE
finding is MAJOR, and no FIELD_REMOVAL finding for the old name and no
FIELD_ADDITION finding for the new name is emitted. -/
theorem field_rename_single_name_change
    (origFields updFields : List Field) (ofn ufn ctx : String) (f g : Field)
    (hf : f ∈ origFields) (hg : g ∈ updFields)
    (hnum : f.number = g.number) (hname : f.name ≠ g.name)
    (hndo : (origFields.map Field.number).Nodup)
    (hndu : (updFields.map Field.number).Nodup)
    (huno : ∀ x ∈ origFields, x.name = f.name → x = f)
    (hunu : ∀ y ∈ updFields, y.name = g.name → y = g) :
    ((reconcileFields origFields updFields ofn ufn ctx).countP
        (isNameChangeFor f.name g.name) = 1)
    ∧ (∀ fd ∈ reconcileFields origFields updFields ofn ufn ctx,
        fd.category = .FIELD_NAME_CHANGE → fd.changeType = .MAJOR)
    ∧ ((reconcileFields origFields updFields ofn ufn ctx).countP
        (isRemovalOf f.name) = 0)
    ∧ ((reconcileFields origFields updFields ofn ufn ctx).countP
        (isAdditionOf g.name) = 0) := by
  have hfind : updFields.find? (fun y => decide (y.number = f.number)) = some g := by
    rw [hnum]
    exact find?_key_unique Field.number updFields g hg hndu
  refine ⟨?_, ?_, ?_, ?_⟩
  · -- exactly one name-change finding for the pair (f, g)
    rw [reconcileFields, List.countP_append, List.countP_append]
    have hA : ((origFields.filter fun x =>
        !(updFields.any fun y => decide (y.number = x.number))).map fun x =>
        ({ category := .FIELD_REMOVAL, changeType := .MAJOR, protoFileName := ofn,
           sourceCodeLine := x.sourceCodeLine, subject := x.name, oldSubject := none,
           context := ctx, extraInfo := none } : Finding)).countP
        (isNameChangeFor f.name g.name) = 0 := by
      rw [List.countP_eq_zero]
      intro fd hfd
      obtain ⟨x, _, rfl⟩ := List.mem_map.mp hfd
      simp [isNameChangeFor]
    have hB : ((updFields.filter fun y =>
        !(origFields.any fun x => decide (x.number = y.number))).map fun y =>
        ({ category := .FIELD_ADDITION, changeType := .MINOR, protoFileName := ufn,
           sourceCodeLine := y.sourceCodeLine, subject := y.name, oldSubject := none,
           context := ctx, extraInfo := none } : Finding)).countP
        (isNameChangeFor f.name g.name) = 0 := by
      rw [List.countP_eq_zero]
      intro fd hfd
      obtain ⟨y, _, rfl⟩ := List.mem_map.mp hfd
      simp [isNameChangeFor]
    have hC : ((origFields.flatMap fun x =>
        match updFields.find? fun y => decide (y.number = x.number) with
        | some y => fieldCompare x y ufn ctx
        | none => []).countP (isNameChangeFor f.name g.name)) = 1 := by
      rw [countP_bind_unique (isNameChangeFor f.name g.name) _ Field.number
        origFields f hf hndo]
      · rw [hfind]
        simp only [fieldCompare]
        rw [List.countP_append]
        have h1 : (if f.name ≠ g.name then
            [({ category := .FIELD_NAME_CHANGE, changeType := .MAJOR,
                protoFileName := ufn, sourceCodeLine := g.sourceCodeLine,
                subject := g.name, oldSubject := some f.name, context := ctx,
                extraInfo := none } : Finding)] else []).countP
            (isNameChangeFor f.name g.name) = 1 := by
          rw [if_pos hname]
          simp [isNameChangeFor]
        rw [h1]
        split <;> simp [isNameChangeFor]
      · intro x hx hxf
        have hxname : x.name ≠ f.name := fun he => hxf (huno x hx he)
        cases hfx : updFields.find? fun y => decide (y.number = x.number) with
        | none => simp
        | some y => simpa using countP_fieldCompare_other f.name g.name x y ufn ctx hxname
    rw [hA, hB, hC]
  · -- every FIELD_NAME_CHANGE finding is MAJOR
    intro fd hfd hcat
    rw [reconcileFields] at hfd
    rcases List.mem_append.mp hfd with hAB | hC
    · rcases List.mem_append.mp hAB with hA | hB
      · obtain ⟨x, _, rfl⟩ := List.mem_map.mp hA
        rfl
      · obtain ⟨y, _, rfl⟩ := List.mem_map.mp hB
        simp at hcat
    · obtain ⟨x, _, hfd'⟩ := List.mem_flatMap.mp hC
      revert hfd'
      cases updFields.find? fun y => decide (y.number = x.number) with
      | none => intro hfd'; cases hfd'
      | some y =>
        intro hfd'
        simp only [fieldCompare] at hfd'
        rcases List.mem_append.mp hfd' with h1 | h2
        · split at h1
          · rw [List.mem_singleton.mp h1]
          · cases h1
        · split at h2
          · rw [List.mem_singleton.mp h2]
          · cases h2
  · -- no FIELD_REMOVAL finding with the old name
    rw [reconcileFields, List.countP_append, List.countP_append]
    have hA : ((origFields.filter fun x =>
        !(updFields.any fun y => decide (y.number = x.number))).map fun x =>
        ({ category := .FIELD_REMOVAL, changeType := .MAJOR, protoFileName := ofn,
           sourceCodeLine := x.sourceCodeLine, subject := x.name, oldSubject := none,
           context := ctx, extraInfo := none } : Finding)).countP
        (isRemovalOf f.name) = 0 := by
      rw [List.countP_eq_zero]
      intro fd hfd
      obtain ⟨x, hx, rfl⟩ := List.mem_map.mp hfd
      obtain ⟨hxmem, hxcond⟩ := List.mem_filter.mp hx
      simp only [isRemovalOf, decide_eq_true_eq, not_and]
      intro _ hxname
      have hxf : x = f := huno x hxmem hxname
      subst hxf
      have : updFields.any (fun y => decide (y.number = x.number)) = true := by
        rw [List.any_eq_true]
        exact ⟨g, hg, by simpa using hnum.symm⟩
      rw [this] at hxcond
      cases hxcond
    have hB : ((updFields.filter fun y =>
        !(origFields.any fun x => decide (x.number = y.number))).map fun y =>
        ({ category := .FIELD_ADDITION, changeType := .MINOR, protoFileName := ufn,
           sourceCodeLine := y.sourceCodeLine, subject := y.name, oldSubject := none,
           context := ctx, extraInfo := none } : Finding)).countP
        (isRemovalOf f.name) = 0 := by
      rw [List.countP_eq_zero]
      intro fd hfd
      obtain ⟨y, _, rfl⟩ := List.mem_map.mp hfd
      simp [isRemovalOf]
    have hC : ((origFields.flatMap fun x =>
        match updFields.find? fun y => decide (y.number = x.number) with
        | some y => fieldCompare x y ufn ctx
        | none => []).countP (isRemovalOf f.name)) = 0 := by
      rw [List.countP_eq_zero]
      intro fd hfd
      obtain ⟨x, _, hfd'⟩ := List.mem_flatMap.mp hfd
      revert hfd'
      cases updFields.find? fun y => decide (y.number = x.number) with
      | none => intro hfd'; cases hfd'
      | some y =>
        intro hfd'
        simp only [fieldCompare] at hfd'
        rcases List.mem_append.mp hfd' with h1 | h2
        · split at h1
          · rw [List.mem_singleton.mp h1]; simp [isRemovalOf]
          · cases h1
        · split at h2
          · rw [List.mem_singleton.mp h2]; simp [isRemovalOf]
          · cases h2
    rw [hA, hB, hC]
  · -- no FIELD_ADDITION finding with the new name
    rw [reconcileFields, List.countP_append, List.countP_append]
    have hA : ((origFields.filter fun x =>
        !(updFields.any fun y => decide (y.number = x.number))).map fun x =>
        ({ category := .FIELD_REMOVAL, changeType := .MAJOR, protoFileName := ofn,
           sourceCodeLine := x.sourceCodeLine, subject := x.name, oldSubject := none,
           context := ctx, extraInfo := none } : Finding)).countP
        (isAdditionOf g.name) = 0 := by
      rw [List.countP_eq_zero]
      intro fd hfd
      obtain ⟨x, _, rfl⟩ := List.mem_map.mp hfd
      simp [isAdditionOf]
    have hB : ((updFields.filter fun y =>
        !(origFields.any fun x => decide (x.number = y.number))).map fun y =>
        ({ category := .FIELD_ADDITION, changeType := .MINOR, protoFileName := ufn,
           sourceCodeLine := y.sourceCodeLine, subject := y.name, oldSubject := none,
           context := ctx, extraInfo := none } : Finding)).countP
        (isAdditionOf g.name) = 0 := by
      rw [List.countP_eq_zero]
      intro fd hfd
      obtain ⟨y, hy, rfl⟩ := List.mem_map.mp hfd
      obtain ⟨hymem, hycond⟩ := List.mem_filter.mp hy
      simp only [isAdditionOf, decide_eq_true_eq, not_and]
      intro _ hyname
      have hyg : y = g := hunu y hymem hyname
      subst hyg
      have : origFields.any (fun x => decide (x.number = y.number)) = true := by
        rw [List.any_eq_true]
        exact ⟨f, hf, by simpa using hnum⟩
      rw [this] at hycond
      cases hycond
    have hC : ((origFields.flatMap fun x =>
        match updFields.find? fun y => decide (y.number = x.number) with
        | some y => fieldCompare x y ufn ctx
        | none => []).countP (isAdditionOf g.name)) = 0 := by
      rw [List.countP_eq_zero]
      intro fd hfd
      obtain ⟨x, _, hfd'⟩ := List.mem_flatMap.mp hfd
      revert hfd'
      cases updFields.find? fun y => decide (y.number = x.number) with
      | none => intro hfd'; cases hfd'
      | some y =>
        intro hfd'
        simp only [fieldCompare] at hfd'
        rcases List.mem_append.mp hfd' with h1 | h2
        · split at h1
          · rw [List.mem_singleton.mp h1]; simp [isAdditionOf]
          · cases h1
        · split at h2
          · rw [List.mem_singleton.mp h2]; simp [isAdditionOf]
          · cases h2
    rw [hA, hB, hC]

/-- Closed instance of `field_rename_single_name_change`: the test scenario
of a field renamed field_one to field_two while keeping wire number 1. -/
theorem field_rename_single_name_change_witness :
    ((reconcileFields [⟨"field_one", 1, "TYPE_STRING", 4⟩]
        [⟨"field_two", 1, "TYPE_STRING", 4⟩] "my_proto.proto" "my_proto.proto"
        "Message Irrelevant").countP (isNameChangeFor "field_one" "field_two") = 1)
    ∧ (∀ fd ∈ reconcileFields [⟨"field_one", 1, "TYPE_STRING", 4⟩]
        [⟨"field_two", 1, "TYPE_STRING", 4⟩] "my_proto.proto" "my_proto.proto"
        "Message Irrelevant",
        fd.category = .FIELD_NAME_CHANGE → fd.changeType = .MAJOR)
    ∧ ((reconcileFields [⟨"field_one", 1, "TYPE_STRING", 4⟩]
        [⟨"field_two", 1, "TYPE_STRING", 4⟩] "my_proto.proto" "my_proto.proto"
        "Message Irrelevant").countP (isRemovalOf "field_one") = 0)
    ∧ ((reconcileFields [⟨"field_one", 1, "TYPE_STRING", 4⟩]
        [⟨"field_two", 1, "TYPE_STRING", 4⟩] "my_proto.proto" "my_proto.proto"
        "Message Irrelevant").countP (isAdditionOf "field_two") = 0) :=
  field_rename_single_name_change
    [⟨"field_one", 1, "TYPE_STRING", 4⟩] [⟨"field_two", 1, "TYPE_STRING", 4⟩]
    "my_proto.proto" "my_proto.proto" "Message Irrelevant"
    ⟨"field_one", 1, "TYPE_STRING", 4⟩ ⟨"field_two", 1, "TYPE_STRING", 4⟩
    (by decide) (by decide) (by decide) (by decide) (by decide) (by decide)
    (by decide) (by decide)

/-- A resource definition: a `type` string (the identity key for matching
definitions across snapshots) and its set of URI-template pattern strings
(spec sections 3 and 4.5). -/
structure ResourceDef where
  resourceType : String
  patterns : List String
  deriving DecidableEq

/-- Modelled from the spec: the resource pattern comparator (not in the
visible source slice) diffs the pattern sets of a matched resource
definition as unordered sets, spec section 4.5: a pattern only in the
original gives RESOURCE_PATTERN_REMOVAL/MAJOR, a pattern only in the updated
gives RESOURCE_PATTERN_ADDITION/MINOR. -/
def compareResourceDef (ro ru : ResourceDef) (fileName context : String) :
    List Finding :=
  ((ro.patterns.filter fun p => decide (¬ p ∈ ru.patterns)).map fun p =>
    { category := .RESOURCE_PATTERN_REMOVAL,
      changeType := .MAJOR,
      protoFileName := fileName,
      sourceCodeLine := 0,
      subject := p,
      oldSubject := none,
      context := context,
      extraInfo := none })
  ++ ((ru.patterns.filter fun p => decide (¬ p ∈ ro.patterns)).map fun p =>
    { category := .RESOURCE_PATTERN_ADDITION,
      changeType := .MINOR,
      protoFileName := fileName,
      sourceCodeLine := 0,
      subject := p,
      oldSubject := none,
      context := context,
      extraInfo := none })

/-- A duplicate-free list whose predicate holds exactly at one member
filters to the singleton of that member. -/
theorem filter_eq_singleton_of_unique {α : Type} (p : α → Bool)
    (l : List α) (a : α) (ha : a ∈ l) (hnd : l.Nodup)
    (hp : ∀ x ∈ l, p x = true ↔ x = a) : l.filter p = [a] := by
  induction l with
  | nil => cases ha
  | cons x t ih =>
    rw [List.nodup_cons] at hnd
    rcases List.mem_cons.mp ha with rfl | hat
    · rw [List.filter_cons_of_pos ((hp a (List.mem_cons_self a t)).mpr rfl)]
      have ht : t.filter p = [] := by
        rw [List.filter_eq_nil_iff]
        intro y hy hpy
        have hya := (hp y (List.mem_cons_of_mem _ hy)).mp hpy
        exact hnd.1 (hya ▸ hy)
      rw [ht]
    · have hxa : x ≠ a := by
        rintro rfl
        exact hnd.1 hat
      have hpx : ¬ p x = true := fun hpx =>
        hxa ((hp x (List.mem_cons_self x t)).mp hpx)
      rw [List.filter_cons_of_neg hpx]
      exact ih hat hnd.2 (fun y hy => hp y (List.mem_cons_of_mem _ hy))

/-- C7: for a matched resource definition whose pattern sets differ by
exactly one pattern, present in the original and absent in the updated, the
comparison emits exactly the one RESOURCE_PATTERN_REMOVAL/MAJOR finding for
the missing pattern. -/
theorem resource_pattern_removal_single
    (ro ru : ResourceDef) (fileName context : String) (p : String)
    (htype : ro.resourceType = ru.resourceType)
    (hnd : ro.patterns.Nodup)
    (hin : p ∈ ro.patterns) (hout : ¬ p ∈ ru.patterns)
    (hsub : ∀ q ∈ ro.patterns, q ≠ p → q ∈ ru.patterns)
    (hsup : ∀ q ∈ ru.patterns, q ∈ ro.patterns) :
    compareResourceDef ro ru fileName context
      = [{ category := .RESOURCE_PATTERN_REMOVAL,
           changeType := .MAJOR,
           protoFileName := fileName,
           sourceCodeLine := 0,
           subject := p,
           oldSubject := none,
           context := context,
           extraInfo := none }] := by
  have hrem : ro.patterns.filter (fun q => decide (¬ q ∈ ru.patterns)) = [p] := by
    refine filter_eq_singleton_of_unique _ ro.patterns p hin hnd ?_
    intro q hq
    constructor
    · intro hdec
      by_contra hqp
      have hq2 : ¬ q ∈ ru.patterns := by simpa using hdec
      exact hq2 (hsub q hq hqp)
    · rintro rfl
      simpa using hout
  have hadd : ru.patterns.filter (fun q => decide (¬ q ∈ ro.patterns)) = [] := by
    rw [List.filter_eq_nil_iff]
    intro q hq hdec
    have hq2 : ¬ q ∈ ro.patterns := by simpa using hdec
    exact hq2 (hsup q hq)
  rw [compareResourceDef, hrem, hadd]
  rfl

/-- Closed instance of `resource_pattern_removal_single`: original patterns
bar/{bar} and foo/{foo}/bar against updated pattern bar/{bar} alone. -/
theorem resource_pattern_removal_single_witness :
    compareResourceDef
      ⟨".example.v1.Bar", ["bar/\x7bbar\x7d", "foo/\x7bfoo\x7d/bar"]⟩
      ⟨".example.v1.Bar", ["bar/\x7bbar\x7d"]⟩ "foo.proto" "File foo.proto"
      = [{ category := .RESOURCE_PATTERN_REMOVAL,
           changeType := .MAJOR,
           protoFileName := "foo.proto",
           sourceCodeLine := 0,
           subject := "foo/\x7bfoo\x7d/bar",
           oldSubject := none,
           context := "File foo.proto",
           extraInfo := none }] :=
  resource_pattern_removal_single
    ⟨".example.v1.Bar", ["bar/\x7bbar\x7d", "foo/\x7bfoo\x7d/bar"]⟩
    ⟨".example.v1.Bar", ["bar/\x7bbar\x7d"]⟩ "foo.proto" "File foo.proto"
    "foo/\x7bfoo\x7d/bar" (by decide) (by decide) (by decide) (by decide)
    (by decide) (by decide)

/-- A character is alphanumeric: letters and digits form the identifier
segments of a namespace string; every other character separates segments. -/
def isAlnumChar (c : Char) : Bool := c.isAlpha || c.isDigit

/-- Release-stage tail of a version segment after the digits: empty, or
`alpha`/`beta` (any letter case) with optional trailing digits, or `p`
followed by digits (spec section 4.7). -/
def isStage (cs : List Char) : Bool :=
  cs.isEmpty
  || (let lc := cs.map Char.toLower
      (decide (lc.take 5 = "alpha".data) && (lc.drop 5).all Char.isDigit)
      || (decide (lc.take 4 = "beta".data) && (lc.drop 4).all Char.isDigit)
      || (match lc with
          | c :: ds => decide (c = 'p') && !ds.isEmpty && ds.all Char.isDigit
          | [] => false))

/-- Modelled from the spec: the recognizer of a version-segment token
(spec section 4.7, the version-suffix reconciliation helper module is not in
the visible source slice): `v<N>`, `v<N>alpha`, `v<N>beta`, `v<N>p<N>` and
case variants. -/
def isVersionSegment (t : List Char) : Bool :=
  match t with
  | [] => false
  | c :: rest =>
    (decide (c = 'v') || decide (c = 'V')) && rest.all isAlnumChar
      && !(rest.takeWhile Char.isDigit).isEmpty
      && isStage (rest.dropWhile Char.isDigit)

/-- Splits a namespace string into maximal alphanumeric segments and
single-character separators, accumulating the current segment reversed. -/
def splitSegsAux : List Char → List Char → List (List Char)
  | [], acc => if acc.isEmpty then [] else [acc.reverse]
  | c :: cs, acc =>
    if isAlnumChar c then splitSegsAux cs (c :: acc)
    else (if acc.isEmpty then [] else [acc.reverse]) ++ [c] :: splitSegsAux cs []

/-- Segments of a namespace string. -/
def splitSegs (s : List Char) : List (List Char) := splitSegsAux s []

/-- Modelled from the spec: version normalization (spec section 4.7) —
the segments of the string with every recognized version-segment token
replaced by a fixed placeholder, so two strings are version-suffix
reconciled exactly when their normalized segments agree. -/
def normSegs (s : List Char) : List (List Char) :=
  (splitSegs s).map fun seg => if isVersionSegment seg then ['v'] else seg

/-- Modelled from the spec: the packaging options comparator on one tracked
option (spec section 4.6, module not in the visible source slice): equal
values give no finding; a change explained by version normalization gives no
finding; a net removal gives PACKAGING_OPTION_REMOVAL/MAJOR with the option
name as subject; any other change gives PACKAGING_OPTION_CHANGE/MAJOR. -/
def comparePackagingOption (optionName : String) (vo vu : Option (List Char))
    (originalFileName updatedFileName context : String) : List Finding :=
  match vo, vu with
  | none, _ => []
  | some _, none =>
    [{ category := .PACKAGING_OPTION_REMOVAL,
       changeType := .MAJOR,
       protoFileName := originalFileName,
       sourceCodeLine := 0,
       subject := optionName,
       oldSubject := none,
       context := context,
       extraInfo := none }]
  | some o, some u =>
    if o = u then []
    else if normSegs o = normSegs u then []
    else
      [{ category := .PACKAGING_OPTION_CHANGE,
         changeType := .MAJOR,
         protoFileName := updatedFileName,
         sourceCodeLine := 0,
         subject := optionName,
         oldSubject := none,
         context := context,
         extraInfo := none }]

/-- The tracked per-language packaging options of a file, plus its package
(spec sections 4.6 and the packaging-option tests). -/
structure FilePackaging where
  package : Option (List Char)
  javaPackage : Option (List Char)
  javaOuterClassname : Option (List Char)
  csharpNamespace : Option (List Char)
  phpNamespace : Option (List Char)
  rubyPackage : Option (List Char)
  deriving DecidableEq

/-- The fixed table of tracked packaging options for a file pair. -/
def packagingPairs (o u : FilePackaging) :
    List (String × Option (List Char) × Option (List Char)) :=
  [("package", o.package, u.package),
   ("java_package", o.javaPackage, u.javaPackage),
   ("java_outer_classname", o.javaOuterClassname, u.javaOuterClassname),
   ("csharp_namespace", o.csharpNamespace, u.csharpNamespace),
   ("php_namespace", o.phpNamespace, u.phpNamespace),
   ("ruby_package", o.rubyPackage, u.rubyPackage)]

/-- Modelled from the spec: the packaging options comparator over the fixed
set of tracked options of a matched file pair (spec section 4.6). -/
def comparePackaging (o u : FilePackaging) (ofn ufn ctx : String) : List Finding :=
  (packagingPairs o u).flatMap fun e =>
    comparePackagingOption e.1 e.2.1 e.2.2 ofn ufn ctx

/-- A version-segment token is nonempty and wholly alphanumeric. -/
theorem isVersionSegment_alnum (t : List Char) (h : isVersionSegment t = true) :
    t ≠ [] ∧ t.all isAlnumChar = true := by
  cases t with
  | nil => cases h
  | cons c rest =>
    refine ⟨by simp, ?_⟩
    rw [isVersionSegment] at h
    simp only [Bool.and_eq_true, Bool.or_eq_true, decide_eq_true_eq] at h
    rw [List.all_cons]
    have hc : isAlnumChar c = true := by
      rcases h.1.1.1 with rfl | rfl <;> decide
    rw [hc, h.1.1.2]
    rfl

/-- Splitting distributes over an append whose left part ends in a
separator character. -/
theorem splitSegsAux_append_sep (c : Char) (hc : isAlnumChar c = false) :
    ∀ (zs ys acc : List Char),
      splitSegsAux (zs ++ c :: ys) acc
        = splitSegsAux (zs ++ [c]) acc ++ splitSegsAux ys [] := by
  intro zs
  induction zs with
  | nil =>
    intro ys acc
    simp [splitSegsAux, hc]
  | cons z zs ih =>
    intro ys acc
    by_cases hz : isAlnumChar z = true
    · simp only [List.cons_append, splitSegsAux, hz, if_true]
      exact ih ys (z :: acc)
    · rw [Bool.not_eq_true] at hz
      simp only [List.cons_append, splitSegsAux, hz, Bool.false_eq_true, if_false,
        List.append_eq]
      rw [ih ys []]
      simp [List.append_assoc]

/-- Splitting an alphanumeric token followed by a separator (or the end of
the string) yields the token as one segment. -/
theorem splitSegsAux_token (t : List Char) :
    t ≠ [] → t.all isAlnumChar = true →
    ∀ (ys : List Char),
      (ys = [] ∨ ∃ d ds, ys = d :: ds ∧ isAlnumChar d = false) →
    ∀ (acc : List Char),
      splitSegsAux (t ++ ys) acc = (acc.reverse ++ t) :: splitSegsAux ys [] := by
  induction t with
  | nil => intro ht; cases ht rfl
  | cons c t ih =>
    intro _ hall ys hys acc
    rw [List.all_cons, Bool.and_eq_true] at hall
    simp only [List.cons_append, splitSegsAux, hall.1, if_true, List.append_eq]
    by_cases htnil : t = []
    · subst htnil
      simp only [List.nil_append]
      rcases hys with rfl | ⟨d, ds, rfl, hd⟩
      · simp [splitSegsAux]
      · simp [splitSegsAux, hd]
    · rw [ih htnil hall.2 ys hys (c :: acc)]
      simp

/-- Splitting a string of the form pre ++ token ++ suf, with the token
alphanumeric, pre empty or ending in a separator and suf empty or starting
with a separator, isolates the token as its own segment. -/
theorem splitSegs_decompose (pre t suf : List Char)
    (hpre : pre = [] ∨ ∃ zs c, pre = zs ++ [c] ∧ isAlnumChar c = false)
    (hsuf : suf = [] ∨ ∃ d ds, suf = d :: ds ∧ isAlnumChar d = false)
    (ht : t ≠ []) (hall : t.all isAlnumChar = true) :
    splitSegs (pre ++ t ++ suf) = splitSegs pre ++ t :: splitSegs suf := by
  rcases hpre with rfl | ⟨zs, c, rfl, hc⟩
  · rw [List.nil_append]
    rw [splitSegs, splitSegsAux_token t ht hall suf hsuf []]
    simp [splitSegs, splitSegsAux]
  · have h1 : zs ++ [c] ++ t ++ suf = zs ++ c :: (t ++ suf) := by simp
    rw [splitSegs, h1, splitSegsAux_append_sep c hc zs (t ++ suf) [],
      splitSegsAux_token t ht hall suf hsuf []]
    rfl

/-- Two strings that differ only by a recognized version-segment token in an
otherwise-identical namespace string. -/
def versionOnlyDiff (o u : List Char) : Prop :=
  ∃ pre t1 t2 suf, o = pre ++ t1 ++ suf ∧ u = pre ++ t2 ++ suf
    ∧ (pre = [] ∨ ∃ zs c, pre = zs ++ [c] ∧ isAlnumChar c = false)
    ∧ (suf = [] ∨ ∃ d ds, suf = d :: ds ∧ isAlnumChar d = false)
    ∧ isVersionSegment t1 = true ∧ isVersionSegment t2 = true

/-- Version normalization identifies two strings that differ only by a
recognized version-segment token. -/
theorem normSegs_version_bump (o u : List Char) (h : versionOnlyDiff o u) :
    normSegs o = normSegs u := by
  obtain ⟨pre, t1, t2, suf, rfl, rfl, hpre, hsuf, h1, h2⟩ := h
  obtain ⟨hne1, hall1⟩ := isVersionSegment_alnum t1 h1
  obtain ⟨hne2, hall2⟩ := isVersionSegment_alnum t2 h2
  rw [normSegs, normSegs, splitSegs_decompose pre t1 suf hpre hsuf hne1 hall1,
    splitSegs_decompose pre t2 suf hpre hsuf hne2 hall2]
  simp [h1, h2]

/-- C4: when every tracked packaging option (package included) of a file
pair is either unchanged or changed only by a recognized version-segment
token inside an otherwise-identical namespace string, the packaging
comparison produces zero findings. -/
theorem packaging_version_bump_no_findings
    (o u : FilePackaging) (ofn ufn ctx : String)
    (h : ∀ e ∈ packagingPairs o u,
      e.2.1 = e.2.2
      ∨ ∃ vo vu, e.2.1 = some vo ∧ e.2.2 = some vu ∧ versionOnlyDiff vo vu) :
    comparePackaging o u ofn ufn ctx = [] := by
  rw [comparePackaging, List.flatMap_eq_nil_iff]
  intro e he
  rcases h e he with heq | ⟨vo, vu, h1, h2, hd⟩
  · rw [heq]
    cases e.2.2 with
    | none => rfl
    | some v => simp [comparePackagingOption]
  · rw [h1, h2]
    by_cases hv : vo = vu
    · simp [comparePackagingOption, hv]
    · simp [comparePackagingOption, hv, normSegs_version_bump vo vu hd]

/-- Closed instance of `packaging_version_bump_no_findings`: the
test_packaging_options_version_update scenario — every tracked option bumped
v1 to v1alpha (V1 to V1alpha) in its language's own separator convention,
the outer classname unchanged — produces zero findings. -/
theorem packaging_version_bump_no_findings_witness :
    comparePackaging
      { package := some "google.cloud.service.v1".data,
        javaPackage := some "com.google.cloud.service.v1".data,
        javaOuterClassname := some "ServiceProto".data,
        csharpNamespace := some "Google.Cloud.Service.V1".data,
        phpNamespace := some "Google\\Cloud\\Service\\V1".data,
        rubyPackage := some "Google::Cloud::Service::V1".data }
      { package := some "google.cloud.service.v1alpha".data,
        javaPackage := some "com.google.cloud.service.v1alpha".data,
        javaOuterClassname := some "ServiceProto".data,
        csharpNamespace := some "Google.Cloud.Service.V1alpha".data,
        phpNamespace := some "Google\\Cloud\\Service\\V1alpha".data,
        rubyPackage := some "Google::Cloud::Service::V1alpha".data }
      "original.proto" "update.proto" "File update.proto" = [] := by
  apply packaging_version_bump_no_findings
  intro e he
  simp only [packagingPairs, List.mem_cons, List.not_mem_nil, or_false] at he
  rcases he with rfl | rfl | rfl | rfl | rfl | rfl
  · exact Or.inr ⟨_, _, rfl, rfl,
      ⟨"google.cloud.service.".data, "v1".data, "v1alpha".data, [],
        by decide, by decide,
        Or.inr ⟨"google.cloud.service".data, '.', by decide, by decide⟩,
        Or.inl rfl, by decide, by decide⟩⟩
  · exact Or.inr ⟨_, _, rfl, rfl,
      ⟨"com.google.cloud.service.".data, "v1".data, "v1alpha".data, [],
        by decide, by decide,
        Or.inr ⟨"com.google.cloud.service".data, '.', by decide, by decide⟩,
        Or.inl rfl, by decide, by decide⟩⟩
  · exact Or.inl rfl
  · exact Or.inr ⟨_, _, rfl, rfl,
      ⟨"Google.Cloud.Service.".data, "V1".data, "V1alpha".data, [],
        by decide, by decide,
        Or.inr ⟨"Google.Cloud.Service".data, '.', by decide, by decide⟩,
        Or.inl rfl, by decide, by decide⟩⟩
  · exact Or.inr ⟨_, _, rfl, rfl,
      ⟨"Google\\Cloud\\Service\\".data, "V1".data, "V1alpha".data, [],
        by decide, by decide,
        Or.inr ⟨"Google\\Cloud\\Service".data, '\\', by decide, by decide⟩,
        Or.inl rfl, by decide, by decide⟩⟩
  · exact Or.inr ⟨_, _, rfl, rfl,
      ⟨"Google::Cloud::Service::".data, "V1".data, "V1alpha".data, [],
        by decide, by decide,
        Or.inr ⟨"Google::Cloud::Service:".data, ':', by decide, by decide⟩,
        Or.inl rfl, by decide, by decide⟩⟩

/-- A message as the registry and the file-level comparison see it: simple
name, fully-qualified name (the identity key, spec section 3) and fields. -/
structure MessageDesc where
  name : String
  fullName : String
  fields : List Field
  deriving DecidableEq

/-- An enum as the registry sees it: simple name and fully-qualified name. -/
structure EnumDesc where
  name : String
  fullName : String
  deriving DecidableEq

/-- A schema file: name, package and its top-level messages and enums. -/
structure ProtoFile where
  name : String
  package : String
  messages : List MessageDesc
  enums : List EnumDesc
  deriving DecidableEq

/-- One whole-schema snapshot: an ordered collection of files. -/
structure FileSet where
  files : List ProtoFile
  deriving DecidableEq

/-- Modelled from the spec: the Global Type Registry (spec section 4.1,
module not in the visible source slice) — one pass over all files recording
every message and enum full name together with its defining file. -/
def typeRegistry (fs : FileSet) : List (String × String) :=
  fs.files.flatMap fun fl =>
    (fl.messages.map fun m => (m.fullName, fl.name))
      ++ (fl.enums.map fun e => (e.fullName, fl.name))

/-- The full names present in a snapshot's registry. -/
def registryKeys (fs : FileSet) : List String := (typeRegistry fs).map Prod.fst

/-- Modelled from the spec: file matching (spec section 4.2) — primary key
the file name, fallback a package-based reconciliation through version
normalization (spec section 4.7). -/
def findUpdatedFile (u : FileSet) (fo : ProtoFile) : Option ProtoFile :=
  match u.files.find? fun fu => decide (fu.name = fo.name) with
  | some fu => some fu
  | none =>
    u.files.find? fun fu =>
      decide (normSegs fu.package.data = normSegs fo.package.data)

/-- Modelled from the spec: removal findings for types (spec sections 4.1
and 4.3) — a message or enum of the original snapshot is reported removed
only when its full name is absent from the updated snapshot's registry, so a
type that merely moved to another file is never reported as a removal. -/
def typeRemovalFindings (o u : FileSet) : List Finding :=
  o.files.flatMap fun fl =>
    ((fl.messages.filter fun m => decide (¬ m.fullName ∈ registryKeys u)).map fun m =>
      { category := .MESSAGE_REMOVAL,
        changeType := .MAJOR,
        protoFileName := fl.name,
        sourceCodeLine := 0,
        subject := m.fullName,
        oldSubject := none,
        context := "File " ++ fl.name,
        extraInfo := none })
    ++ ((fl.enums.filter fun e => decide (¬ e.fullName ∈ registryKeys u)).map fun e =>
      { category := .ENUM_REMOVAL,
        changeType := .MAJOR,
        protoFileName := fl.name,
        sourceCodeLine := 0,
        subject := e.fullName,
        oldSubject := none,
        context := "File " ++ fl.name,
        extraInfo := none })

/-- Modelled from the spec: for every matched file pair and every matched
message pair inside it (keys: file name with package fallback, then message
name), reconcile the fields (spec section 4.3), locating updated-side
findings in the updated file. -/
def matchedFileFindings (o u : FileSet) : List Finding :=
  o.files.flatMap fun fo =>
    match findUpdatedFile u fo with
    | none => []
    | some fu =>
      fo.messages.flatMap fun mo =>
        match fu.messages.find? fun mu => decide (mu.name = mo.name) with
        | some mu =>
          reconcileFields mo.fields mu.fields fo.name fu.name
            ("Message " ++ mo.name)
        | none => []

/-- Modelled from the spec: the slice of FileSetComparator.compare the
relocation claim exercises (spec sections 4.1-4.3): registry-gated type
removal findings plus the matched-file field comparisons. -/
def fileSetCompare (o u : FileSet) : List Finding :=
  typeRemovalFindings o u ++ matchedFileFindings o u

/-- Every finding of a field reconciliation is about a field. -/
theorem reconcileFields_field_category (fo fu : List Field)
    (ofn ufn ctx : String) (fd : Finding)
    (hfd : fd ∈ reconcileFields fo fu ofn ufn ctx) :
    fd.category = .FIELD_REMOVAL ∨ fd.category = .FIELD_ADDITION
      ∨ fd.category = .FIELD_NAME_CHANGE ∨ fd.category = .FIELD_TYPE_CHANGE := by
  rw [reconcileFields] at hfd
  rcases List.mem_append.mp hfd with hAB | hC
  · rcases List.mem_append.mp hAB with hA | hB
    · obtain ⟨x, _, rfl⟩ := List.mem_map.mp hA
      exact Or.inl rfl
    · obtain ⟨y, _, rfl⟩ := List.mem_map.mp hB
      exact Or.inr (Or.inl rfl)
  · obtain ⟨x, _, hfd2⟩ := List.mem_flatMap.mp hC
    revert hfd2
    cases fu.find? fun g => decide (g.number = x.number) with
    | none => intro hfd2; cases hfd2
    | some y =>
      intro hfd2
      simp only [fieldCompare] at hfd2
      rcases List.mem_append.mp hfd2 with h1 | h2
      · split at h1
        · rw [List.mem_singleton.mp h1]
          exact Or.inr (Or.inr (Or.inl rfl))
        · cases h1
      · split at h2
        · rw [List.mem_singleton.mp h2]
          exact Or.inr (Or.inr (Or.inr rfl))
        · cases h2

/-- A FIELD_TYPE_CHANGE finding of a field reconciliation is MAJOR, located
at the updated file name, and its subject names an updated-side field. -/
theorem reconcileFields_type_change (fo fu : List Field)
    (ofn ufn ctx : String) (fd : Finding)
    (hfd : fd ∈ reconcileFields fo fu ofn ufn ctx)
    (hcat : fd.category = .FIELD_TYPE_CHANGE) :
    fd.changeType = .MAJOR ∧ fd.protoFileName = ufn
      ∧ ∃ gf ∈ fu, fd.subject = gf.name := by
  rw [reconcileFields] at hfd
  rcases List.mem_append.mp hfd with hAB | hC
  · rcases List.mem_append.mp hAB with hA | hB
    · obtain ⟨x, _, rfl⟩ := List.mem_map.mp hA
      cases hcat
    · obtain ⟨y, _, rfl⟩ := List.mem_map.mp hB
      cases hcat
  · obtain ⟨x, _, hfd2⟩ := List.mem_flatMap.mp hC
    revert hfd2
    cases hfind : fu.find? fun g => decide (g.number = x.number) with
    | none => intro hfd2; cases hfd2
    | some y =>
      intro hfd2
      have hy : y ∈ fu := List.mem_of_find?_eq_some hfind
      simp only [fieldCompare] at hfd2
      rcases List.mem_append.mp hfd2 with h1 | h2
      · split at h1
        · rw [List.mem_singleton.mp h1] at hcat
          cases hcat
        · cases h1
      · split at h2
        · rw [List.mem_singleton.mp h2]
          exact ⟨rfl, rfl, y, hy, rfl⟩
        · cases h2

/-- C2: if a type (message or enum) referenced as a field type is still
present, under its full name, in the updated snapshot's registry — in
particular when it merely moved to a different file — the comparison never
emits a message- or enum-removal finding with that type as subject, and
every field-type-change finding it emits is MAJOR and located at an updated
file that contains the referencing field. -/
theorem relocated_type_not_removed (o u : FileSet) (T : String)
    (hT : T ∈ registryKeys u) :
    (∀ fd ∈ fileSetCompare o u,
      fd.category = .MESSAGE_REMOVAL ∨ fd.category = .ENUM_REMOVAL →
        fd.subject ≠ T)
    ∧ (∀ fd ∈ fileSetCompare o u, fd.category = .FIELD_TYPE_CHANGE →
        fd.changeType = .MAJOR
          ∧ ∃ fu ∈ u.files, fd.protoFileName = fu.name
            ∧ ∃ mu ∈ fu.messages, ∃ gf ∈ mu.fields, fd.subject = gf.name) := by
  constructor
  · intro fd hfd hcat
    rcases List.mem_append.mp hfd with h1 | h2
    · rw [typeRemovalFindings] at h1
      obtain ⟨fl, _, hin⟩ := List.mem_flatMap.mp h1
      rcases List.mem_append.mp hin with hm | he
      · obtain ⟨m, hmf, rfl⟩ := List.mem_map.mp hm
        obtain ⟨_, hcond⟩ := List.mem_filter.mp hmf
        rw [decide_eq_true_eq] at hcond
        intro hsub
        have hsub2 : m.fullName = T := hsub
        exact hcond (hsub2 ▸ hT)
      · obtain ⟨e, hef, rfl⟩ := List.mem_map.mp he
        obtain ⟨_, hcond⟩ := List.mem_filter.mp hef
        rw [decide_eq_true_eq] at hcond
        intro hsub
        have hsub2 : e.fullName = T := hsub
        exact hcond (hsub2 ▸ hT)
    · rw [matchedFileFindings] at h2
      obtain ⟨fo2, _, hin⟩ := List.mem_flatMap.mp h2
      revert hin
      cases findUpdatedFile u fo2 with
      | none => intro hin; cases hin
      | some fu =>
        intro hin
        obtain ⟨mo, _, hin2⟩ := List.mem_flatMap.mp hin
        revert hin2
        cases fu.messages.find? fun mu => decide (mu.name = mo.name) with
        | none => intro hin2; cases hin2
        | some mu =>
          intro hin2
          rcases reconcileFields_field_category _ _ _ _ _ fd hin2 with
            hc | hc | hc | hc <;>
            rcases hcat with hcat | hcat <;> rw [hc] at hcat <;> cases hcat
  · intro fd hfd hcat
    rcases List.mem_append.mp hfd with h1 | h2
    · rw [typeRemovalFindings] at h1
      obtain ⟨fl, _, hin⟩ := List.mem_flatMap.mp h1
      rcases List.mem_append.mp hin with hm | he
      · obtain ⟨m, _, rfl⟩ := List.mem_map.mp hm
        cases hcat
      · obtain ⟨e, _, rfl⟩ := List.mem_map.mp he
        cases hcat
    · rw [matchedFileFindings] at h2
      obtain ⟨fo2, _, hin⟩ := List.mem_flatMap.mp h2
      revert hin
      cases hfu : findUpdatedFile u fo2 with
      | none => intro hin; cases hin
      | some fu =>
        intro hin
        have hfumem : fu ∈ u.files := by
          rw [findUpdatedFile] at hfu
          revert hfu
          cases hname : u.files.find? fun x => decide (x.name = fo2.name) with
          | some fx =>
            intro hfu
            cases hfu
            exact List.mem_of_find?_eq_some hname
          | none =>
            intro hfu
            exact List.mem_of_find?_eq_some hfu
        obtain ⟨mo, _, hin2⟩ := List.mem_flatMap.mp hin
        revert hin2
        cases hmu : fu.messages.find? fun mu => decide (mu.name = mo.name) with
        | none => intro hin2; cases hin2
        | some mu =>
          intro hin2
          have hmumem : mu ∈ fu.messages := List.mem_of_find?_eq_some hmu
          obtain ⟨hmaj, hloc, gf, hgf, hsub⟩ :=
            reconcileFields_type_change mo.fields mu.fields fo2.name fu.name
              ("Message " ++ mo.name) fd hin2 hcat
          exact ⟨hmaj, fu, hfumem, hloc, mu, hmumem, gf, hgf, hsub⟩

/-- Closed instance of `relocated_type_not_removed`: the type
.test.import.T moves from dep.proto into main.proto while staying
referenced by field a of message M; no removal finding may name it and any
field-type-change finding sits in an updated file. -/
theorem relocated_type_not_removed_witness :
    (∀ fd ∈ fileSetCompare
      ⟨[⟨"main.proto", "example.v1",
          [⟨"M", ".example.v1.M", [⟨"a", 1, ".test.import.T", 3⟩]⟩], []⟩,
        ⟨"dep.proto", "test.import", [⟨"T", ".test.import.T", []⟩], []⟩]⟩
      ⟨[⟨"main.proto", "example.v1beta1",
          [⟨"M", ".example.v1beta1.M", [⟨"a", 1, ".test.import.T", 3⟩]⟩,
           ⟨"T", ".test.import.T", []⟩], []⟩]⟩,
      fd.category = .MESSAGE_REMOVAL ∨ fd.category = .ENUM_REMOVAL →
        fd.subject ≠ ".test.import.T")
    ∧ (∀ fd ∈ fileSetCompare
      ⟨[⟨"main.proto", "example.v1",
          [⟨"M", ".example.v1.M", [⟨"a", 1, ".test.import.T", 3⟩]⟩], []⟩,
        ⟨"dep.proto", "test.import", [⟨"T", ".test.import.T", []⟩], []⟩]⟩
      ⟨[⟨"main.proto", "example.v1beta1",
          [⟨"M", ".example.v1beta1.M", [⟨"a", 1, ".test.import.T", 3⟩]⟩,
           ⟨"T", ".test.import.T", []⟩], []⟩]⟩,
      fd.category = .FIELD_TYPE_CHANGE →
        fd.changeType = .MAJOR
          ∧ ∃ fu ∈ (⟨[⟨"main.proto", "example.v1beta1",
              [⟨"M", ".example.v1beta1.M", [⟨"a", 1, ".test.import.T", 3⟩]⟩,
               ⟨"T", ".test.import.T", []⟩], []⟩]⟩ : FileSet).files,
              fd.protoFileName = fu.name
                ∧ ∃ mu ∈ fu.messages, ∃ gf ∈ mu.fields, fd.subject = gf.name) :=
  relocated_type_not_removed
    ⟨[⟨"main.proto", "example.v1",
        [⟨"M", ".example.v1.M", [⟨"a", 1, ".test.import.T", 3⟩]⟩], []⟩,
      ⟨"dep.proto", "test.import", [⟨"T", ".test.import.T", []⟩], []⟩]⟩
    ⟨[⟨"main.proto", "example.v1beta1",
        [⟨"M", ".example.v1beta1.M", [⟨"a", 1, ".test.import.T", 3⟩]⟩,
         ⟨"T", ".test.import.T", []⟩], []⟩]⟩
    ".test.import.T" (by decide)

/-- C3: when both the original and the updated enum value are present,
`EnumValueComparator.compare` appends a finding if and only if the two names
differ; on a difference it appends exactly one ENUM_VALUE_NAME_CHANGE/MAJOR
finding carrying the original's name in the old-subject slot and the nested
path in extra_info; on equal names it appends nothing. -/
theorem enumValueCompare_both_present_name_check
    (o u : EnumValue) (context : String) (container : List Finding) :
    ∃ r, EnumValueComparator.compare (some o) (some u) context container = some r
      ∧ (o.name = u.name → r = container)
      ∧ (o.name ≠ u.name →
          r = container ++ [{ category := .ENUM_VALUE_NAME_CHANGE,
                              changeType := .MAJOR,
                              protoFileName := u.protoFileName,
                              sourceCodeLine := u.sourceCodeLine,
                              subject := u.name,
                              oldSubject := some o.name,
                              context := context,
                              extraInfo := some u.nestedPath }]) := by
  by_cases h : o.name = u.name
  · refine ⟨container, by simp [EnumValueComparator.compare, h], fun _ => rfl,
      fun hne => absurd h hne⟩
  · refine ⟨_, by simp [EnumValueComparator.compare, h], fun he => absurd he h,
      fun _ => rfl⟩

/-- Closed instance of `enumValueCompare_both_present_name_check` at a concrete
pair of enum values with differing names. -/
theorem enumValueCompare_both_present_name_check_witness :
    ∃ r, EnumValueComparator.compare
        (some ⟨"RED", 1, "a.proto", 3, "path.Color"⟩)
        (some ⟨"CRIMSON", 1, "a.proto", 3, "path.Color"⟩)
        "Enum Color" [] = some r
      ∧ ((⟨"RED", 1, "a.proto", 3, "path.Color"⟩ : EnumValue).name
            = (⟨"CRIMSON", 1, "a.proto", 3, "path.Color"⟩ : EnumValue).name → r = [])
      ∧ ((⟨"RED", 1, "a.proto", 3, "path.Color"⟩ : EnumValue).name
            ≠ (⟨"CRIMSON", 1, "a.proto", 3, "path.Color"⟩ : EnumValue).name →
          r = [] ++ [{ category := .ENUM_VALUE_NAME_CHANGE,
                       changeType := .MAJOR,
                       protoFileName := "a.proto",
                       sourceCodeLine := 3,
                       subject := "CRIMSON",
                       oldSubject := some "RED",
                       context := "Enum Color",
                       extraInfo := some "path.Color" }]) :=
  enumValueCompare_both_present_name_check
    ⟨"RED", 1, "a.proto", 3, "path.Color"⟩
    ⟨"CRIMSON", 1, "a.proto", 3, "path.Color"⟩ "Enum Color" []

/-- C5: when the original enum value is present and the updated one absent,
`EnumValueComparator.compare` appends exactly one ENUM_VALUE_REMOVAL/MAJOR
finding whose subject and location come from the original; end to end, the
(spec-modelled) enum reconciliation of {RED=1, GREEN=2, BLUE=3} against
{RED=1, GREEN=2} yields exactly one ENUM_VALUE_REMOVAL/MAJOR finding with
subject BLUE. -/
theorem enumValueCompare_removal_and_enum_end_to_end :
    (∀ (o : EnumValue) (context : String) (container : List Finding),
      EnumValueComparator.compare (some o) none context container
        = some (container ++ [{ category := .ENUM_VALUE_REMOVAL,
                                changeType := .MAJOR,
                                protoFileName := o.protoFileName,
                                sourceCodeLine := o.sourceCodeLine,
                                subject := o.name,
                                oldSubject := none,
                                context := context,
                                extraInfo := none }]))
    ∧ EnumComparator.compare
        [⟨"RED", 1, "my_proto.proto", 2, "Irrelevant"⟩,
         ⟨"GREEN", 2, "my_proto.proto", 3, "Irrelevant"⟩,
         ⟨"BLUE", 3, "my_proto.proto", 4, "Irrelevant"⟩]
        [⟨"RED", 1, "my_proto.proto", 2, "Irrelevant"⟩,
         ⟨"GREEN", 2, "my_proto.proto", 3, "Irrelevant"⟩]
        "Enum Irrelevant" []
        = some [{ category := .ENUM_VALUE_REMOVAL,
                  changeType := .MAJOR,
                  protoFileName := "my_proto.proto",
                  sourceCodeLine := 4,
                  subject := "BLUE",
                  oldSubject := none,
                  context := "Enum Irrelevant",
                  extraInfo := none }] := by
  constructor
  · intro o context container
    rfl
  · rfl

/-- C6: when the original enum value is absent and the updated one present,
`EnumValueComparator.compare` appends exactly one ENUM_VALUE_ADDITION/MINOR
finding whose subject and location come from the updated element. -/
theorem enumValueCompare_addition (u : EnumValue) (context : String)
    (container : List Finding) :
    EnumValueComparator.compare none (some u) context container
      = some (container ++ [{ category := .ENUM_VALUE_ADDITION,
                              changeType := .MINOR,
                              protoFileName := u.protoFileName,
                              sourceCodeLine := u.sourceCodeLine,
                              subject := u.name,
                              oldSubject := none,
                              context := context,
                              extraInfo := none }]) := rfl

/-- C8: the leaf comparison is deterministic and append-only — the findings
it appends are a pure function of the two enum-value inputs and the context,
independent of the container's prior contents, so two runs on the same
inputs append identical findings in identical order. -/
theorem enumValueCompare_deterministic_delta (o u : Option EnumValue)
    (context : String) (container : List Finding) :
    EnumValueComparator.compare o u context container
      = (EnumValueComparator.compare o u context []).map fun d => container ++ d := by
  cases o with
  | none => cases u <;> rfl
  | some ov =>
    cases u with
    | none => rfl
    | some uv =>
      by_cases h : ov.name = uv.name <;> simp [EnumValueComparator.compare, h]

/-- C9: `EnumValueComparator.compare` succeeds (no attribute access on an
absent value) exactly when at least one of the two inputs is present; with
both absent, the addition branch dereferences the absent updated value. -/
theorem enumValueCompare_some_iff (o u : Option EnumValue)
    (context : String) (container : List Finding) :
    (EnumValueComparator.compare o u context container).isSome
      ↔ (o.isSome ∨ u.isSome) := by
  cases o with
  | none => cases u <;> simp [EnumValueComparator.compare]
  | some ov =>
    cases u with
    | none => simp [EnumValueComparator.compare]
    | some uv =>
      by_cases h : ov.name = uv.name <;> simp [EnumValueComparator.compare, h]

/-- C10: in the name-change branch (both present, names differ) the emitted
finding takes its subject, proto file name and source line from the updated
enum value; the original contributes only the old-subject. -/
theorem enumValueCompare_name_change_location_from_update
    (o u : EnumValue) (context : String) (container : List Finding)
    (h : o.name ≠ u.name) :
    EnumValueComparator.compare (some o) (some u) context container
      = some (container ++ [{ category := .ENUM_VALUE_NAME_CHANGE,
                              changeType := .MAJOR,
                              protoFileName := u.protoFileName,
                              sourceCodeLine := u.sourceCodeLine,
                              subject := u.name,
                              oldSubject := some o.name,
                              context := context,
                              extraInfo := some u.nestedPath }]) := by
  simp [EnumValueComparator.compare, h]

/-- Closed instance of `enumValueCompare_name_change_location_from_update`:
the finding's location is new.proto line 9 (the updated value's), not
old.proto line 7 (the original's). -/
theorem enumValueCompare_name_change_location_from_update_witness :
    EnumValueComparator.compare
        (some ⟨"FOO", 1, "old.proto", 7, "pOld"⟩)
        (some ⟨"BAR", 1, "new.proto", 9, "pNew"⟩) "Enum E" []
      = some [{ category := .ENUM_VALUE_NAME_CHANGE,
                changeType := .MAJOR,
                protoFileName := "new.proto",
                sourceCodeLine := 9,
                subject := "BAR",
                oldSubject := some "FOO",
                context := "Enum E",
                extraInfo := some "pNew" }] := by
  have h := enumValueCompare_name_change_location_from_update
    ⟨"FOO", 1, "old.proto", 7, "pOld"⟩ ⟨"BAR", 1, "new.proto", 9, "pNew"⟩
    "Enum E" [] (by decide)
  simpa using h

end PBCD
